import Mathlib

/-!
Verification of the NativeScript `@NativeClass` webpack transformer
(`packages/webpack5/src/transformers/NativeClass/index.ts`).

The transformer walks a TypeScript source file; every class declaration
carrying a decorator whose (trimmed) full text contains the substring
`@NativeClass` is replaced by an identifier node holding the text obtained by

  1. taking the declaration's source text (`node.getText()`),
  2. deleting every occurrence of the JavaScript regex
     `@NativeClass(\((.|\n)*?\))?` (flags `gm`),
  3. transpiling the result with
     `{ noEmitHelpers: true, module: ESNext, target: ES5 }` via
     `ts.transpileModule`, and
  4. rewriting the emitted text with the JavaScript regex replacement
     `(Object\.defineProperty\(.*?{.*?)(enumerable:\s*false)(.*?}\))` (flags
     `gs`) to `$1enumerable: true$3`.

The embedding below models the syntax tree shallowly (nodes carry their
`getText()` text and decorator list as data), models the two JavaScript
regex replacements character by character following ECMAScript matching
semantics (leftmost match, lazy quantifiers, global continuation after the
match end), and treats `ts.transpileModule` as an opaque parameter of type
`Transpile`, since the TypeScript compiler itself is not part of the
repository.  The recursive text functions use an explicit fuel argument
(`fuel = length of the input`), which never runs out; this keeps them
structurally recursive so that concrete instances evaluate by `decide`.
-/

/-- Character class of ECMAScript `(.|\n)`: every character except carriage
return and the Unicode line separators U+2028 and U+2029 (`.` without the
`s` flag excludes the four line terminators, and `\n` is re-admitted). -/
def dotNl (c : Char) : Bool :=
  !(c == '\r' || c == Char.ofNat 0x2028 || c == Char.ofNat 0x2029)

/-- ECMAScript `\s` / `String.prototype.trim` whitespace. -/
def wsCharJs (c : Char) : Bool :=
  c == ' ' || c == '\t' || c == '\n' || c == '\x0b' || c == '\x0c' || c == '\r' ||
  c == Char.ofNat 0xa0 || c == Char.ofNat 0xfeff || c == Char.ofNat 0x1680 ||
  (decide (0x2000 ≤ c.toNat) && decide (c.toNat ≤ 0x200a)) ||
  c == Char.ofNat 0x2028 || c == Char.ofNat 0x2029 ||
  c == Char.ofNat 0x202f || c == Char.ofNat 0x205f || c == Char.ofNat 0x3000

/-- Model of JavaScript `String.prototype.trim` on character lists. -/
def jsTrim (s : List Char) : List Char :=
  ((s.dropWhile wsCharJs).reverse.dropWhile wsCharJs).reverse

/-- `startsWithL s p` holds when `p` is a prefix of `s`. -/
def startsWithL : List Char → List Char → Bool
  | _, [] => true
  | [], _ :: _ => false
  | c :: s, p :: ps => c == p && startsWithL s ps

/-- `containsL s p`: `p` occurs as a contiguous substring of `s`
(JavaScript `s.indexOf(p) > -1`). -/
def containsL : List Char → List Char → Bool
  | [], p => p.isEmpty
  | c :: s, p => startsWithL (c :: s) p || containsL s p

/-- The marker tag scanned for by the transformer. -/
def tagChars : List Char := "@NativeClass".toList

/-- Lazy body of the optional group `\((.|\n)*?\)`: after an opening
parenthesis, consume characters matched by `(.|\n)` up to the first closing
parenthesis; fail if a non-matching character or the end of the input is
reached first.  Returns the remainder after the closing parenthesis. -/
def findClose : List Char → Option (List Char)
  | [] => none
  | c :: cs => if c == ')' then some cs else if dotNl c then findClose cs else none

/-- Global replacement of `/@NativeClass(\((.|\n)*?\))?/gm` by the empty
string, with an explicit fuel argument (one unit per scanning step; the
wrapper `stripMarker` supplies `fuel = length`, which is always enough). -/
def stripMarkerF : Nat → List Char → List Char
  | 0, s => s
  | _ + 1, [] => []
  | fuel + 1, c :: cs =>
    if startsWithL (c :: cs) tagChars then
      match (c :: cs).drop tagChars.length with
      | [] => []
      | r :: rs =>
        if r == '(' then
          match findClose rs with
          | some rem => stripMarkerF fuel rem
          | none => stripMarkerF fuel (r :: rs)
        else stripMarkerF fuel (r :: rs)
    else c :: stripMarkerF fuel cs

/-- `text.replace(/@NativeClass(\((.|\n)*?\))?/gm, '')` from the source:
delete every occurrence of the marker tag together with an optional,
lazily matched parenthesized argument list immediately after it. -/
def stripMarker (s : List Char) : List Char := stripMarkerF s.length s

/-- The literal head of the enumerability pattern. -/
def odpChars : List Char := "Object.defineProperty(".toList

/-- The literal `enumerable:` of the enumerability pattern. -/
def enumChars : List Char := "enumerable:".toList

/-- The literal `false` of the enumerability pattern. -/
def falseChars : List Char := "false".toList

/-- The replacement text substituted for capture group 2. -/
def enumTrueChars : List Char := "enumerable: true".toList

/-- Opening curly brace character. -/
def braceL : Char := Char.ofNat 123

/-- Closing curly brace character. -/
def braceR : Char := Char.ofNat 125

/-- First occurrence of `pat` in the input (the lazy `.*?pat` step under the
`s` flag): returns the characters before the occurrence and the remainder
after it. -/
def splitAtSub (pat : List Char) : List Char → Option (List Char × List Char)
  | [] => if pat.isEmpty then some ([], []) else none
  | c :: cs =>
    if startsWithL (c :: cs) pat then some ([], (c :: cs).drop pat.length)
    else
      match splitAtSub pat cs with
      | some (x, y) => some (c :: x, y)
      | none => none

/-- After a position where `enumerable:` matches, try to complete
`\s*false` (the `\s*` is greedy, and `false` must follow the whitespace
run); on success return the remainder after `false`. -/
def enumFalseAfter (l : List Char) : Option (List Char) :=
  if startsWithL ((l.drop enumChars.length).dropWhile wsCharJs) falseChars then
    some (((l.drop enumChars.length).dropWhile wsCharJs).drop falseChars.length)
  else none

/-- The lazy step `.*?enumerable:\s*false`: first position where
`enumerable:` occurs followed (after greedy `\s*`) by `false`.  Returns the
characters consumed by the lazy star and the remainder after `false`. -/
def findEnumFalse : List Char → Option (List Char × List Char)
  | [] => none
  | c :: cs =>
    if startsWithL (c :: cs) enumChars then
      match enumFalseAfter (c :: cs) with
      | some y => some ([], y)
      | none =>
        match findEnumFalse cs with
        | some (x, y) => some (c :: x, y)
        | none => none
    else
      match findEnumFalse cs with
      | some (x, y) => some (c :: x, y)
      | none => none

/-- The lazy step `.*?}\)`: first closing brace immediately followed by a
closing parenthesis.  Returns the characters consumed by the lazy star and
the remainder after `})`. -/
def findCloseParen2 : List Char → Option (List Char × List Char)
  | [] => none
  | c :: cs =>
    if c == braceR && cs.head? == some ')' then some ([], cs.drop 1)
    else
      match findCloseParen2 cs with
      | some (x, y) => some (c :: x, y)
      | none => none

/-- Attempt to complete a match of
`(Object\.defineProperty\(.*?{.*?)(enumerable:\s*false)(.*?}\))` whose
`Object.defineProperty(` prefix has already been consumed.  On success,
returns the replaced text standing for the rest of the match
(`$1enumerable: true$3` without the already-consumed prefix) and the
remainder of the input after the match. -/
def tryODPMatch (r1 : List Char) : Option (List Char × List Char) :=
  match splitAtSub [braceL] r1 with
  | none => none
  | some (a1, r2) =>
    match findEnumFalse r2 with
    | none => none
    | some (b2, r3) =>
      match findCloseParen2 r3 with
      | none => none
      | some (c3, rest) =>
        some (a1 ++ [braceL] ++ b2 ++ enumTrueChars ++ c3 ++ [braceR, ')'], rest)

/-- Fueled scanner for the global enumerability replacement. -/
def fixEnumerableF : Nat → List Char → List Char
  | 0, s => s
  | _ + 1, [] => []
  | fuel + 1, c :: cs =>
    if startsWithL (c :: cs) odpChars then
      match tryODPMatch ((c :: cs).drop odpChars.length) with
      | some (mid, rest) => odpChars ++ mid ++ fixEnumerableF fuel rest
      | none => c :: fixEnumerableF fuel cs
    else c :: fixEnumerableF fuel cs

/-- `outputText.replace(/(Object\.defineProperty\(.*?{.*?)(enumerable:\s*false)(.*?}\))/gs,
'$1enumerable: true$3')` from the source. -/
def fixEnumerable (s : List Char) : List Char := fixEnumerableF s.length s

/-- Syntax kinds needed by the embedding; `classDeclaration` has its own
constructor in `Node`, so these are the kinds of non-class-declaration
nodes. -/
inductive SynKind where
  | identifier
  | classExpression
  | methodDeclaration
  | functionDeclaration
  | variableStatement
  | expressionStatement
  | block
  deriving DecidableEq, Repr

/-- A decorator, abstracted to the string returned by
`decorator.getFullText()`. -/
structure Decorator where
  fullText : List Char
  deriving DecidableEq, Repr

mutual
/-- Shallow model of a TypeScript AST node.  A node carries the decorator
list that `ts.getDecorators` would return (`none` when the node has no
decorators), the text that `node.getText()` would return, and its child
nodes. -/
inductive Node where
  | classDecl : Option (List Decorator) → List Char → NodeList → Node
  | other : SynKind → Option (List Decorator) → List Char → NodeList → Node
  deriving DecidableEq, Repr

/-- Children of a node (a mutual inductive so that the traversal is
structurally recursive). -/
inductive NodeList where
  | nil : NodeList
  | cons : Node → NodeList → NodeList
  deriving DecidableEq, Repr
end

/-- A source file, abstracted to its statement list
(`ts.factory.updateSourceFile` only replaces the statements). -/
structure SourceFile where
  statements : List Node
  deriving DecidableEq, Repr

/-- `ts.isClassDeclaration`. -/
def isClassDeclaration : Node → Bool
  | Node.classDecl _ _ _ => true
  | Node.other _ _ _ _ => false

/-- Which non-class-declaration kinds support decorators
(`ts.canHaveDecorators` covers class declarations and expressions, methods,
accessors, properties and parameters). -/
def kindCanHaveDecorators : SynKind → Bool
  | SynKind.classExpression => true
  | SynKind.methodDeclaration => true
  | _ => false

/-- `ts.canHaveDecorators`. -/
def canHaveDecorators : Node → Bool
  | Node.classDecl _ _ _ => true
  | Node.other k _ _ _ => kindCanHaveDecorators k

/-- `ts.getDecorators`: the decorator list, or `undefined` (modelled as
`none`) when the node has none. -/
def getDecorators : Node → Option (List Decorator)
  | Node.classDecl d _ _ => d
  | Node.other _ d _ _ => d

/-- `node.getText()`. -/
def nodeText : Node → List Char
  | Node.classDecl _ t _ => t
  | Node.other _ _ t _ => t

/-- The children of a node. -/
def childrenOf : Node → NodeList
  | Node.classDecl _ _ cs => cs
  | Node.other _ _ _ cs => cs

/-- Rebuild a node with new children, keeping everything else
(`ts.visitEachChild` reconstruction). -/
def replaceChildren : Node → NodeList → Node
  | Node.classDecl d t _, cs => Node.classDecl d t cs
  | Node.other k d t _, cs => Node.other k d t cs

/-- `ts.ModuleKind` (the constructors the claims need). -/
inductive ModuleKind where
  | commonJS
  | esNext
  deriving DecidableEq, Repr

/-- `ts.ScriptTarget` (the constructors the claims need). -/
inductive ScriptTarget where
  | es5
  | es2015
  | esNext
  deriving DecidableEq, Repr

/-- The compiler options consumed by the nested compile. -/
structure CompilerOptions where
  noEmitHelpers : Bool
  module : ModuleKind
  target : ScriptTarget
  deriving DecidableEq, Repr

/-- The options object handed to `ts.transpileModule`.  The source passes
only `compilerOptions`; in particular `reportDiagnostics` is absent
(modelled as `none`). -/
structure TranspileOptions where
  compilerOptions : CompilerOptions
  reportDiagnostics : Option Bool
  deriving DecidableEq, Repr

/-- The result of `ts.transpileModule`: emitted text plus diagnostics
(which the transformer never reads). -/
structure TranspileOutput where
  outputText : List Char
  diagnostics : List (List Char)
  deriving DecidableEq, Repr

/-- The nested compiler, `ts.transpileModule`, treated as an opaque
parameter: it is part of the TypeScript library, not of this repository. -/
def Transpile : Type := List Char → TranspileOptions → TranspileOutput

/-- The options literal written in `createHelper`:
`{ compilerOptions: { noEmitHelpers: true, module: ESNext, target: ES5 } }`. -/
def nativeClassTranspileOptions : TranspileOptions :=
  { compilerOptions :=
      { noEmitHelpers := true
        module := ModuleKind.esNext
        target := ScriptTarget.es5 }
    reportDiagnostics := none }

/-- `isNativeClassExtension` from the source:
`canHaveDecorators(node) && getDecorators(node) &&
 getDecorators(node).filter(d => d.getFullText().trim().indexOf('@NativeClass') > -1).length > 0`. -/
def isNativeClassExtension (node : Node) : Bool :=
  canHaveDecorators node &&
    match getDecorators node with
    | none => false
    | some ds =>
      decide (0 < (ds.filter fun d => containsL (jsTrim d.fullText) tagChars).length)

/-- The Fragment Text handed to the nested compiler:
`node.getText().replace(/@NativeClass(\((.|\n)*?\))?/gm, '')`. -/
def fragmentText (node : Node) : List Char := stripMarker (nodeText node)

/-- `createHelper` from the source: transpile the stripped declaration text
under the fixed options, patch the enumerability attribute in the emitted
text, and wrap the result in an identifier node
(`ts.factory.createIdentifier`). -/
def createHelper (tr : Transpile) (node : Node) : Node :=
  Node.other SynKind.identifier none
    (fixEnumerable (tr (fragmentText node) nativeClassTranspileOptions).outputText)
    NodeList.nil

mutual
/-- `visitNode` from the source: replace a marker-bearing class declaration
via `createHelper`, otherwise visit the children
(`ts.visitEachChild(node, visitNode, ctx)`; the transformation context is
not consulted by the model). -/
def visitNode (tr : Transpile) : Node → Node
  | Node.classDecl d t cs =>
    if isClassDeclaration (Node.classDecl d t cs) &&
        isNativeClassExtension (Node.classDecl d t cs) then
      createHelper tr (Node.classDecl d t cs)
    else Node.classDecl d t (visitList tr cs)
  | Node.other k d t cs =>
    if isClassDeclaration (Node.other k d t cs) &&
        isNativeClassExtension (Node.other k d t cs) then
      createHelper tr (Node.other k d t cs)
    else Node.other k d t (visitList tr cs)

/-- Child traversal for `visitNode`. -/
def visitList (tr : Transpile) : NodeList → NodeList
  | NodeList.nil => NodeList.nil
  | NodeList.cons c cs => NodeList.cons (visitNode tr c) (visitList tr cs)
end

/-- The returned transformer:
`source => ts.factory.updateSourceFile(source, ts.visitNodes(source.statements, visitNode))`. -/
def transform (tr : Transpile) (source : SourceFile) : SourceFile :=
  { statements := source.statements.map (visitNode tr) }

mutual
/-- `noMatch n` holds when no node in the subtree of `n` is a
marker-bearing class declaration. -/
def noMatch : Node → Bool
  | Node.classDecl d t cs =>
    !(isClassDeclaration (Node.classDecl d t cs) &&
        isNativeClassExtension (Node.classDecl d t cs)) && noMatchList cs
  | Node.other k d t cs =>
    !(isClassDeclaration (Node.other k d t cs) &&
        isNativeClassExtension (Node.other k d t cs)) && noMatchList cs

/-- `noMatch` on child lists. -/
def noMatchList : NodeList → Bool
  | NodeList.nil => true
  | NodeList.cons c cs => noMatch c && noMatchList cs
end

/-- A concrete transpiler used to instantiate closed statements: it echoes
its input and reports no diagnostics. -/
def trEcho : Transpile := fun s _ => { outputText := s, diagnostics := [] }

/-- A marker-bearing class declaration (tag plus empty argument list) used
in closed instances of the theorems below. -/
def sampleMarked : Node :=
  Node.classDecl (some [{ fullText := "@NativeClass()".toList }])
    "@NativeClass()\nclass Foo \x7b\x7d".toList NodeList.nil

/-- A plain statement with no marker anywhere. -/
def samplePlain : Node :=
  Node.other SynKind.variableStatement none "var x = 1;".toList NodeList.nil

/-- A two-statement file: one marked class and one plain statement. -/
def sampleFile : SourceFile := { statements := [sampleMarked, samplePlain] }

/-- A marked class declaration nested in the body of a function statement. -/
def nestedMarked : Node :=
  Node.classDecl (some [{ fullText := "@NativeClass".toList }])
    "@NativeClass\nclass Inner \x7b\x7d".toList NodeList.nil

/-- A non-matching function statement whose body holds `nestedMarked`. -/
def outerFn : Node :=
  Node.other SynKind.functionDeclaration none
    "function f() \x7b @NativeClass class Inner \x7b\x7d \x7d".toList
    (NodeList.cons nestedMarked NodeList.nil)

/-- A file whose only statement is the function containing the nested
marked class. -/
def nestedFile : SourceFile := { statements := [outerFn] }

/-- A class declaration decorated with a non-marker decorator. -/
def otherDecorated : Node :=
  Node.classDecl (some [{ fullText := "@Component()".toList }])
    "@Component()\nclass Widget \x7b\x7d".toList NodeList.nil

/-- A file with no marker-bearing declaration anywhere. -/
def noMatchFile : SourceFile := { statements := [otherDecorated, samplePlain] }

/-- A marked class whose method body contains the literal tag inside a
string literal. -/
def bodyTagNode : Node :=
  Node.classDecl (some [{ fullText := "@NativeClass".toList }])
    "@NativeClass\nclass A \x7b m() \x7b return \"@NativeClass\"; \x7d \x7d".toList
    NodeList.nil

/-- A marked class whose method body contains text that re-forms the tag by
juxtaposition once an embedded occurrence is deleted. -/
def juxtapNode : Node :=
  Node.classDecl (some [{ fullText := "@NativeClass".toList }])
    "@NativeClass\nclass A \x7b m() \x7b return \"@Nativ@NativeClasseClass\"; \x7d \x7d".toList
    NodeList.nil

/-- The spec scenario of an unterminated marker argument list. -/
def malformedNode : Node :=
  Node.classDecl (some [{ fullText := "@NativeClass(1,2".toList }])
    "@NativeClass(1,2\nclass Foo \x7b\x7d".toList NodeList.nil

/-- A file whose only statement is the malformed declaration. -/
def malformedFile : SourceFile := { statements := [malformedNode] }

/-- Emitted text whose only `enumerable: false` lies in an unrelated string
literal after a property-definition call that does not set the attribute. -/
def emittedBad : List Char :=
  "Object.defineProperty(e, k, \x7b value: 1 \x7d); var msg = \"enumerable: false\"; arr.map(function (x) \x7b return x; \x7d);".toList

/-- What the normalizer actually produces for `emittedBad`: the string
literal is rewritten. -/
def emittedBadRes : List Char :=
  "Object.defineProperty(e, k, \x7b value: 1 \x7d); var msg = \"enumerable: true\"; arr.map(function (x) \x7b return x; \x7d);".toList

/-- Emitted text of the canonical legacy-target member installation. -/
def emittedGood : List Char :=
  "Object.defineProperty(A.prototype, \"m\", \x7b enumerable: false, configurable: true, writable: true \x7d);".toList

/-- `emittedGood` with the enumerability attribute patched. -/
def emittedGoodRes : List Char :=
  "Object.defineProperty(A.prototype, \"m\", \x7b enumerable: true, configurable: true, writable: true \x7d);".toList

/-! ### Basic lemmas about the string primitives -/

theorem startsWithL_iff (p : List Char) :
    ∀ s : List Char, startsWithL s p = true ↔ ∃ y, s = p ++ y := by
  induction p with
  | nil =>
    intro s
    simp [startsWithL]
  | cons q qs ih =>
    intro s
    cases s with
    | nil =>
      simp [startsWithL]
    | cons c cs =>
      simp only [startsWithL, Bool.and_eq_true, beq_iff_eq, ih cs, List.cons_append]
      constructor
      · rintro ⟨rfl, y, rfl⟩
        exact ⟨y, rfl⟩
      · rintro ⟨y, h⟩
        cases h
        exact ⟨rfl, y, rfl⟩

theorem startsWithL_append (p y : List Char) : startsWithL (p ++ y) p = true :=
  (startsWithL_iff p (p ++ y)).mpr ⟨y, rfl⟩

theorem containsL_iff (p : List Char) :
    ∀ s : List Char, containsL s p = true ↔ ∃ x y, s = x ++ p ++ y := by
  intro s
  induction s with
  | nil =>
    simp only [containsL, List.isEmpty_iff]
    constructor
    · rintro rfl
      exact ⟨[], [], rfl⟩
    · rintro ⟨x, y, h⟩
      cases x <;> cases p <;> simp_all
  | cons c cs ih =>
    simp only [containsL, Bool.or_eq_true, startsWithL_iff, ih]
    constructor
    · rintro (⟨y, h⟩ | ⟨x, y, h⟩)
      · exact ⟨[], y, by simp [h]⟩
      · exact ⟨c :: x, y, by simp [h]⟩
    · rintro ⟨x, y, h⟩
      cases x with
      | nil => exact Or.inl ⟨y, by simpa using h⟩
      | cons a as =>
        rw [List.cons_append, List.cons_append, List.cons.injEq] at h
        exact Or.inr ⟨as, y, h.2⟩

theorem containsL_of_startsWithL {s p : List Char} (h : startsWithL s p = true) :
    containsL s p = true := by
  obtain ⟨y, rfl⟩ := (startsWithL_iff p s).mp h
  exact (containsL_iff p (p ++ y)).mpr ⟨[], y, rfl⟩

theorem containsL_cons_eq (c : Char) (cs p : List Char) :
    containsL (c :: cs) p = (startsWithL (c :: cs) p || containsL cs p) := rfl

theorem containsL_append_left {s p : List Char} (x : List Char)
    (h : containsL s p = true) : containsL (x ++ s) p = true := by
  obtain ⟨u, v, rfl⟩ := (containsL_iff p s).mp h
  exact (containsL_iff p _).mpr ⟨x ++ u, v, by simp⟩

theorem containsL_append_right {s p : List Char} (y : List Char)
    (h : containsL s p = true) : containsL (s ++ y) p = true := by
  obtain ⟨u, v, rfl⟩ := (containsL_iff p s).mp h
  exact (containsL_iff p _).mpr ⟨u, v ++ y, by simp⟩

/-! ### Fuel adequacy for `stripMarker` -/

theorem findClose_length :
    ∀ {l r : List Char}, findClose l = some r → r.length < l.length := by
  intro l
  induction l with
  | nil => intro r h; simp [findClose] at h
  | cons c cs ih =>
    intro r h
    rw [findClose] at h
    by_cases hc : c == ')'
    · simp [hc] at h
      subst h
      simp
    · by_cases hd : dotNl c
      · simp [hc, hd] at h
        exact Nat.lt_trans (ih h) (by simp)
      · simp [hc, hd] at h

theorem stripMarkerF_nil : ∀ f, stripMarkerF f [] = [] := by
  intro f
  cases f <;> rfl

theorem tagChars_length : tagChars.length = 12 := rfl

theorem stripMarkerF_irrel :
    ∀ (f : Nat) {g : Nat} {s : List Char}, s.length ≤ f → s.length ≤ g →
      stripMarkerF f s = stripMarkerF g s := by
  intro f
  induction f with
  | zero =>
    intro g s hf _
    have : s = [] := List.eq_nil_of_length_eq_zero (Nat.le_zero.mp hf)
    subst this
    simp [stripMarkerF_nil]
  | succ f ih =>
    intro g s hf hg
    cases s with
    | nil => simp [stripMarkerF_nil]
    | cons c cs =>
      cases g with
      | zero => simp at hg
      | succ g =>
        have hcs_f : cs.length ≤ f := by
          simp only [List.length_cons] at hf
          omega
        have hcs_g : cs.length ≤ g := by
          simp only [List.length_cons] at hg
          omega
        have hdrop : ((c :: cs).drop tagChars.length).length ≤ cs.length := by
          rw [List.length_drop, tagChars_length, List.length_cons]
          omega
        rw [stripMarkerF, stripMarkerF]
        by_cases hs : startsWithL (c :: cs) tagChars
        · simp only [hs, if_true]
          cases hrest : (c :: cs).drop tagChars.length with
          | nil => simp
          | cons r rs =>
            have hrestlen : (r :: rs).length ≤ cs.length := hrest ▸ hdrop
            have hrs : rs.length + 1 ≤ cs.length := by simpa using hrestlen
            by_cases hr : r == '('
            · simp only [hr, if_true]
              cases hfc : findClose rs with
              | some rem =>
                have hremlen : rem.length ≤ cs.length := by
                  have h1 := findClose_length hfc
                  omega
                exact ih (Nat.le_trans hremlen hcs_f) (Nat.le_trans hremlen hcs_g)
              | none =>
                exact ih (Nat.le_trans hrestlen hcs_f) (Nat.le_trans hrestlen hcs_g)
            · simp only [hr, if_false, Bool.false_eq_true]
              exact ih (Nat.le_trans hrestlen hcs_f) (Nat.le_trans hrestlen hcs_g)
        · simp only [hs, if_false, Bool.false_eq_true]
          rw [ih hcs_f hcs_g]

theorem stripMarkerF_eq_stripMarker {f : Nat} {s : List Char} (h : s.length ≤ f) :
    stripMarkerF f s = stripMarker s :=
  stripMarkerF_irrel f h (Nat.le_refl _)

theorem stripMarker_nil : stripMarker [] = [] := rfl

theorem stripMarker_cons_noTag {c : Char} {cs : List Char}
    (h : startsWithL (c :: cs) tagChars = false) :
    stripMarker (c :: cs) = c :: stripMarker cs := by
  show stripMarkerF (cs.length + 1) (c :: cs) = _
  rw [stripMarkerF, h]
  simp [stripMarker]

theorem tagChars_eq_cons : tagChars = '@' :: "NativeClass".toList := by decide

theorem stripMarker_tag_step (x : List Char) :
    stripMarker (tagChars ++ x) =
      match x with
      | [] => []
      | r :: rs =>
        if r == '(' then
          match findClose rs with
          | some rem => stripMarker rem
          | none => stripMarker (r :: rs)
        else stripMarker (r :: rs) := by
  have hguard : startsWithL ('@' :: ("NativeClass".toList ++ x)) tagChars = true :=
    startsWithL_append tagChars x
  have hdrop : List.drop tagChars.length ('@' :: ("NativeClass".toList ++ x)) = x :=
    List.drop_left tagChars x
  rw [tagChars_eq_cons]
  show stripMarkerF (("NativeClass".toList ++ x).length + 1) ('@' :: ("NativeClass".toList ++ x)) = _
  rw [stripMarkerF, hguard]
  simp only [if_true, hdrop]
  have hxlen : x.length ≤ ("NativeClass".toList ++ x).length := by
    simp only [List.length_append]
    omega
  cases x with
  | nil => rfl
  | cons r rs =>
    simp only []
    by_cases hr : r == '('
    · simp only [hr, if_true]
      cases hfc : findClose rs with
      | some rem =>
        have hlen : rem.length ≤ ("NativeClass".toList ++ (r :: rs)).length := by
          have h1 := findClose_length hfc
          simp only [List.length_append, List.length_cons] at hxlen ⊢
          omega
        exact stripMarkerF_eq_stripMarker hlen
      | none =>
        exact stripMarkerF_eq_stripMarker hxlen
    · simp only [hr, if_false, Bool.false_eq_true]
      exact stripMarkerF_eq_stripMarker hxlen

theorem stripMarker_tag_noParen {b : List Char} (hb : b.head? ≠ some '(') :
    stripMarker (tagChars ++ b) = stripMarker b := by
  rw [stripMarker_tag_step]
  cases b with
  | nil => rfl
  | cons r rs =>
    have : (r == '(') = false := by
      simp only [List.head?] at hb
      simpa using fun h => hb (by rw [h])
    simp [this]

theorem findClose_through {b : List Char} :
    ∀ inner : List Char, (∀ c ∈ inner, dotNl c = true ∧ c ≠ ')') →
      findClose (inner ++ ')' :: b) = some b := by
  intro inner
  induction inner with
  | nil =>
    intro _
    simp [findClose]
  | cons c cs ih =>
    intro h
    have hc := h c (List.mem_cons_self c cs)
    rw [List.cons_append, findClose]
    have hcne : (c == ')') = false := by simpa using hc.2
    rw [hcne]
    simp only [Bool.false_eq_true, if_false, hc.1, if_true]
    exact ih fun d hd => h d (List.mem_cons_of_mem c hd)

theorem stripMarker_tag_args {inner b : List Char}
    (hinner : ∀ c ∈ inner, dotNl c = true ∧ c ≠ ')') :
    stripMarker (tagChars ++ '(' :: (inner ++ ')' :: b)) = stripMarker b := by
  rw [stripMarker_tag_step]
  simp only [beq_self_eq_true, if_true, findClose_through inner hinner]

/-! ### The marker tag does not overlap itself -/

theorem startsWithL_iff_take (p : List Char) (s : List Char) :
    startsWithL s p = true ↔ s.take p.length = p := by
  rw [startsWithL_iff]
  constructor
  · rintro ⟨y, rfl⟩
    exact List.take_left p y
  · intro h
    have h2 := List.take_append_drop p.length s
    rw [h] at h2
    exact ⟨s.drop p.length, h2.symm⟩

theorem tag_no_border :
    ∀ d ∈ List.range tagChars.length,
      d = 0 ∨ tagChars.take d ++ tagChars.take (tagChars.length - d) ≠ tagChars := by
  decide

theorem startsWithL_tag_of_border {t u : List Char} (ht : t ≠ [])
    (h : startsWithL (t ++ (tagChars ++ u)) tagChars = true) :
    startsWithL t tagChars = true := by
  by_cases hlen : tagChars.length ≤ t.length
  · rw [startsWithL_iff_take] at h ⊢
    rw [List.take_append_eq_append_take, Nat.sub_eq_zero_of_le hlen] at h
    simpa using h
  · exfalso
    push_neg at hlen
    rw [startsWithL_iff_take, List.take_append_eq_append_take,
      List.take_of_length_le (Nat.le_of_lt hlen),
      List.take_append_eq_append_take,
      Nat.sub_eq_zero_of_le (Nat.sub_le tagChars.length t.length),
      List.take_zero, List.append_nil] at h
    have ht2 : t = tagChars.take t.length := by
      have h2 := congrArg (List.take t.length) h
      rw [List.take_append_eq_append_take, List.take_of_length_le (Nat.le_refl t.length),
        Nat.sub_self, List.take_zero, List.append_nil] at h2
      exact h2
    have hmem : t.length ∈ List.range tagChars.length := List.mem_range.mpr hlen
    rcases tag_no_border t.length hmem with h0 | hne
    · exact ht (List.eq_nil_of_length_eq_zero h0)
    · exact hne (by rw [← ht2]; exact h)

/-! ### Scanning past marker-free text -/

theorem stripMarker_id {s : List Char} (h : containsL s tagChars = false) :
    stripMarker s = s := by
  induction s with
  | nil => rfl
  | cons c cs ih =>
    rw [containsL_cons_eq, Bool.or_eq_false_iff] at h
    rw [stripMarker_cons_noTag h.1, ih h.2]

theorem stripMarker_append_noTag {r : List Char} :
    ∀ a : List Char, containsL a tagChars = false →
      stripMarker (a ++ (tagChars ++ r)) = a ++ stripMarker (tagChars ++ r) := by
  intro a
  induction a with
  | nil => simp
  | cons c cs ih =>
    intro h
    rw [containsL_cons_eq, Bool.or_eq_false_iff] at h
    have hguard : startsWithL ((c :: cs) ++ (tagChars ++ r)) tagChars = false := by
      cases hx : startsWithL ((c :: cs) ++ (tagChars ++ r)) tagChars with
      | false => rfl
      | true =>
        have := startsWithL_tag_of_border (t := c :: cs) (by simp) hx
        rw [this] at h
        exact absurd h.1 (by simp)
    rw [List.cons_append] at hguard ⊢
    rw [stripMarker_cons_noTag hguard, ih h.2, List.cons_append]

/-! ### Single-occurrence characterization of the marker removal -/

theorem stripMarker_single_args {a inner b : List Char}
    (ha : containsL a tagChars = false) (hb : containsL b tagChars = false)
    (hinner : ∀ c ∈ inner, dotNl c = true ∧ c ≠ ')') :
    stripMarker (a ++ (tagChars ++ '(' :: (inner ++ ')' :: b))) = a ++ b := by
  rw [stripMarker_append_noTag a ha, stripMarker_tag_args hinner, stripMarker_id hb]

theorem stripMarker_single_noParen {a b : List Char}
    (ha : containsL a tagChars = false) (hb : containsL b tagChars = false)
    (hbhead : b.head? ≠ some '(') :
    stripMarker (a ++ (tagChars ++ b)) = a ++ b := by
  rw [stripMarker_append_noTag a ha, stripMarker_tag_noParen hbhead, stripMarker_id hb]

/-! ### Fuel adequacy for `fixEnumerable` -/

theorem dropWhile_length_le (p : Char → Bool) (l : List Char) :
    (l.dropWhile p).length ≤ l.length :=
  (List.dropWhile_sublist p).length_le

theorem splitAtSub_length {pat : List Char} :
    ∀ {l x y : List Char}, splitAtSub pat l = some (x, y) → pat ≠ [] → y.length < l.length := by
  intro l
  induction l with
  | nil =>
    intro x y h hpat
    rw [splitAtSub] at h
    rw [if_neg (by simpa using hpat)] at h
    exact absurd h (by simp)
  | cons c cs ih =>
    intro x y h hpat
    rw [splitAtSub] at h
    by_cases hs : startsWithL (c :: cs) pat
    · rw [if_pos hs] at h
      injection h with h
      injection h with h1 h2
      subst h2
      rw [List.length_drop, List.length_cons]
      cases pat with
      | nil => exact absurd rfl hpat
      | cons p ps => simp only [List.length_cons]; omega
    · rw [if_neg hs] at h
      cases hrec : splitAtSub pat cs with
      | some xy =>
        rw [hrec] at h
        obtain ⟨x', y'⟩ := xy
        injection h with h
        injection h with h1 h2
        subst h2
        exact Nat.lt_trans (ih hrec hpat) (by simp)
      | none =>
        rw [hrec] at h
        exact absurd h (by simp)

theorem enumChars_length : enumChars.length = 11 := rfl

theorem falseChars_length : falseChars.length = 5 := rfl

theorem enumFalseAfter_length {l y : List Char} (h : enumFalseAfter l = some y) :
    y.length + enumChars.length ≤ l.length := by
  rw [enumFalseAfter] at h
  by_cases hf : startsWithL ((l.drop enumChars.length).dropWhile wsCharJs) falseChars
  · rw [if_pos hf] at h
    injection h with h
    subst h
    have h1 : (((l.drop enumChars.length).dropWhile wsCharJs).drop falseChars.length).length ≤
        ((l.drop enumChars.length).dropWhile wsCharJs).length := by
      rw [List.length_drop]
      exact Nat.sub_le _ _
    have h2 : ((l.drop enumChars.length).dropWhile wsCharJs).length ≤
        (l.drop enumChars.length).length :=
      dropWhile_length_le wsCharJs _
    rw [List.length_drop] at h2
    have h3 : enumChars.length = 11 := rfl
    have h4 : falseChars.length ≤ ((l.drop enumChars.length).dropWhile wsCharJs).length := by
      obtain ⟨t, ht⟩ := (startsWithL_iff falseChars _).mp hf
      rw [ht]
      simp
    have h5 : falseChars.length = 5 := rfl
    omega
  · rw [if_neg hf] at h
    exact absurd h (by simp)

theorem findEnumFalse_length :
    ∀ {l x y : List Char}, findEnumFalse l = some (x, y) → y.length < l.length := by
  intro l
  induction l with
  | nil =>
    intro x y h
    exact absurd h (by simp [findEnumFalse])
  | cons c cs ih =>
    intro x y h
    rw [findEnumFalse] at h
    by_cases hs : startsWithL (c :: cs) enumChars
    · rw [if_pos hs] at h
      cases hea : enumFalseAfter (c :: cs) with
      | some y2 =>
        rw [hea] at h
        have h0 : some (([] : List Char), y2) = some (x, y) := h
        injection h0 with h0
        injection h0 with h1 h2
        subst h2
        have := enumFalseAfter_length hea
        have h3 : enumChars.length = 11 := rfl
        rw [List.length_cons] at this ⊢
        omega
      | none =>
        rw [hea] at h
        cases hrec : findEnumFalse cs with
        | some xy =>
          rw [hrec] at h
          obtain ⟨x2, y2⟩ := xy
          have h4 : y = y2 := by
            have : some (c :: x2, y2) = some (x, y) := h
            injection this with h5
            injection h5 with h6 h7
            exact h7.symm
          subst h4
          exact Nat.lt_trans (ih hrec) (by simp)
        | none =>
          rw [hrec] at h
          exact absurd h (by simp)
    · rw [if_neg hs] at h
      cases hrec : findEnumFalse cs with
      | some xy =>
        rw [hrec] at h
        obtain ⟨x2, y2⟩ := xy
        have h4 : y = y2 := by
          have : some (c :: x2, y2) = some (x, y) := h
          injection this with h5
          injection h5 with h6 h7
          exact h7.symm
        subst h4
        exact Nat.lt_trans (ih hrec) (by simp)
      | none =>
        rw [hrec] at h
        exact absurd h (by simp)

theorem findCloseParen2_length :
    ∀ {l x y : List Char}, findCloseParen2 l = some (x, y) → y.length < l.length := by
  intro l
  induction l with
  | nil =>
    intro x y h
    exact absurd h (by simp [findCloseParen2])
  | cons c cs ih =>
    intro x y h
    rw [findCloseParen2] at h
    by_cases hc : (c == braceR && cs.head? == some ')') = true
    · rw [if_pos hc] at h
      injection h with h
      injection h with h1 h2
      subst h2
      rw [List.length_drop, List.length_cons]
      omega
    · rw [if_neg hc] at h
      cases hrec : findCloseParen2 cs with
      | some xy =>
        rw [hrec] at h
        obtain ⟨x', y'⟩ := xy
        injection h with h
        injection h with h1 h2
        subst h2
        exact Nat.lt_trans (ih hrec) (by simp)
      | none =>
        rw [hrec] at h
        exact absurd h (by simp)

theorem tryODPMatch_length {r1 mid rest : List Char}
    (h : tryODPMatch r1 = some (mid, rest)) : rest.length < r1.length := by
  rw [tryODPMatch] at h
  cases h1 : splitAtSub [braceL] r1 with
  | none => rw [h1] at h; exact absurd h (by simp)
  | some a1r2 =>
    obtain ⟨a1, r2⟩ := a1r2
    rw [h1] at h
    have h1' : (match findEnumFalse r2 with
        | none => none
        | some (b2, r3) =>
          match findCloseParen2 r3 with
          | none => none
          | some (c3, rest) =>
            some (a1 ++ [braceL] ++ b2 ++ enumTrueChars ++ c3 ++ [braceR, ')'], rest)) =
        some (mid, rest) := h
    cases h2 : findEnumFalse r2 with
    | none => rw [h2] at h1'; exact absurd h1' (by simp)
    | some b2r3 =>
      obtain ⟨b2, r3⟩ := b2r3
      rw [h2] at h1'
      have h2' : (match findCloseParen2 r3 with
          | none => none
          | some (c3, rest) =>
            some (a1 ++ [braceL] ++ b2 ++ enumTrueChars ++ c3 ++ [braceR, ')'], rest)) =
          some (mid, rest) := h1'
      cases h3 : findCloseParen2 r3 with
      | none => rw [h3] at h2'; exact absurd h2' (by simp)
      | some c3rest =>
        obtain ⟨c3, rest2⟩ := c3rest
        rw [h3] at h2'
        have h3' : some (a1 ++ [braceL] ++ b2 ++ enumTrueChars ++ c3 ++ [braceR, ')'], rest2) =
            some (mid, rest) := h2'
        injection h3' with h3'
        injection h3' with h4 h5
        subst h5
        have l1 := splitAtSub_length h1 (by simp)
        have l2 := findEnumFalse_length h2
        have l3 := findCloseParen2_length h3
        omega

theorem fixEnumerableF_nil : ∀ f, fixEnumerableF f [] = [] := by
  intro f
  cases f <;> rfl

theorem fixEnumerableF_irrel :
    ∀ (f : Nat) {g : Nat} {s : List Char}, s.length ≤ f → s.length ≤ g →
      fixEnumerableF f s = fixEnumerableF g s := by
  intro f
  induction f with
  | zero =>
    intro g s hf _
    have : s = [] := List.eq_nil_of_length_eq_zero (Nat.le_zero.mp hf)
    subst this
    simp [fixEnumerableF_nil]
  | succ f ih =>
    intro g s hf hg
    cases s with
    | nil => simp [fixEnumerableF_nil]
    | cons c cs =>
      cases g with
      | zero => simp at hg
      | succ g =>
        have hcs_f : cs.length ≤ f := by
          simp only [List.length_cons] at hf
          omega
        have hcs_g : cs.length ≤ g := by
          simp only [List.length_cons] at hg
          omega
        rw [fixEnumerableF, fixEnumerableF]
        by_cases hs : startsWithL (c :: cs) odpChars
        · simp only [hs, if_true]
          cases hm : tryODPMatch ((c :: cs).drop odpChars.length) with
          | some midrest =>
            obtain ⟨mid, rest⟩ := midrest
            have hlen : rest.length ≤ cs.length := by
              have h1 := tryODPMatch_length hm
              have h2 : ((c :: cs).drop odpChars.length).length ≤ cs.length := by
                rw [List.length_drop, List.length_cons]
                have : odpChars.length = 22 := rfl
                omega
              omega
            exact congrArg (fun t => odpChars ++ mid ++ t)
              (ih (Nat.le_trans hlen hcs_f) (Nat.le_trans hlen hcs_g))
          | none =>
            exact congrArg (c :: ·) (ih hcs_f hcs_g)
        · simp only [hs, if_false, Bool.false_eq_true]
          rw [ih hcs_f hcs_g]

theorem fixEnumerable_cons_noODP {c : Char} {cs : List Char}
    (h : startsWithL (c :: cs) odpChars = false) :
    fixEnumerable (c :: cs) = c :: fixEnumerable cs := by
  show fixEnumerableF (cs.length + 1) (c :: cs) = _
  rw [fixEnumerableF, h]
  simp [fixEnumerable]

theorem fixEnumerable_id {s : List Char} (h : containsL s odpChars = false) :
    fixEnumerable s = s := by
  induction s with
  | nil => rfl
  | cons c cs ih =>
    rw [containsL_cons_eq, Bool.or_eq_false_iff] at h
    rw [fixEnumerable_cons_noODP h.1, ih h.2]

/-! ### Trimming does not affect containment of a whitespace-free pattern -/

theorem bool_eq_of_iff {a b : Bool} (h : a = true ↔ b = true) : a = b := by
  cases a <;> cases b <;> simp_all

theorem containsL_dropWhile {p : List Char} {h0 : Char} {hs0 : List Char}
    (hp : p = h0 :: hs0) (hw : wsCharJs h0 = false) :
    ∀ s : List Char, containsL (s.dropWhile wsCharJs) p = containsL s p := by
  intro s
  induction s with
  | nil => rfl
  | cons c cs ih =>
    by_cases hc : wsCharJs c = true
    · rw [List.dropWhile_cons_of_pos hc, ih, containsL_cons_eq]
      have hsw : startsWithL (c :: cs) p = false := by
        rw [hp, startsWithL]
        have : (c == h0) = false := by
          cases hcc : c == h0 with
          | false => rfl
          | true =>
            have : c = h0 := by simpa using hcc
            subst this
            rw [hc] at hw
            exact absurd hw (by simp)
        rw [this]
        rfl
      rw [hsw]
      rfl
    · rw [List.dropWhile_cons_of_neg hc]

theorem containsL_reverse (l p : List Char) :
    containsL l.reverse p = containsL l p.reverse := by
  apply bool_eq_of_iff
  rw [containsL_iff, containsL_iff]
  constructor
  · rintro ⟨x, y, h⟩
    refine ⟨y.reverse, x.reverse, ?_⟩
    have := congrArg List.reverse h
    rw [List.reverse_reverse] at this
    rw [this]
    simp
  · rintro ⟨x, y, h⟩
    refine ⟨y.reverse, x.reverse, ?_⟩
    rw [h]
    simp

theorem containsL_jsTrim (p : List Char) (h0 l0 : Char) (hs0 ls0 : List Char)
    (hp : p = h0 :: hs0) (hpr : p.reverse = l0 :: ls0)
    (hw : wsCharJs h0 = false) (hwl : wsCharJs l0 = false) (s : List Char) :
    containsL (jsTrim s) p = containsL s p := by
  rw [jsTrim]
  rw [containsL_reverse, containsL_dropWhile hpr hwl, ← containsL_reverse,
    List.reverse_reverse, containsL_dropWhile hp hw]

theorem containsL_jsTrim_tag (s : List Char) :
    containsL (jsTrim s) tagChars = containsL s tagChars :=
  containsL_jsTrim tagChars '@' 's' "NativeClass".toList "salCevitaN@".toList
    (by decide) (by decide) (by decide) (by decide) s

/-! ### Detector support -/

theorem filter_length_pos_iff {α : Type} (f : α → Bool) :
    ∀ l : List α, 0 < (l.filter f).length ↔ ∃ d ∈ l, f d = true := by
  intro l
  induction l with
  | nil => simp
  | cons a as ih =>
    by_cases ha : f a = true
    · rw [List.filter_cons_of_pos ha]
      simp only [List.length_cons, List.mem_cons]
      constructor
      · intro _
        exact ⟨a, Or.inl rfl, ha⟩
      · intro _
        omega
    · rw [List.filter_cons_of_neg (by simpa using ha)]
      rw [ih]
      constructor
      · rintro ⟨d, hd, hfd⟩
        exact ⟨d, List.mem_cons_of_mem a hd, hfd⟩
      · rintro ⟨d, hd, hfd⟩
        rcases List.mem_cons.mp hd with rfl | hd2
        · exact absurd hfd ha
        · exact ⟨d, hd2, hfd⟩

/-! ### Traversal support -/

theorem visitNode_eq_matched {tr : Transpile} {n : Node}
    (h : (isClassDeclaration n && isNativeClassExtension n) = true) :
    visitNode tr n = createHelper tr n := by
  cases n with
  | classDecl d t cs => rw [visitNode, if_pos h]
  | other k d t cs => rw [visitNode, if_pos h]

theorem visitNode_eq_unmatched {tr : Transpile} {n : Node}
    (h : (isClassDeclaration n && isNativeClassExtension n) = false) :
    visitNode tr n = replaceChildren n (visitList tr (childrenOf n)) := by
  cases n with
  | classDecl d t cs =>
    rw [visitNode, if_neg (by simp [h])]
    rfl
  | other k d t cs =>
    rw [visitNode, if_neg (by simp [h])]
    rfl

mutual
theorem visitNode_noMatch (tr : Transpile) :
    ∀ n : Node, noMatch n = true → visitNode tr n = n
  | Node.classDecl d t cs, h => by
    rw [noMatch, Bool.and_eq_true, Bool.not_eq_true'] at h
    rw [visitNode, if_neg (by simp [h.1])]
    rw [visitList_noMatch tr cs h.2]
  | Node.other k d t cs, h => by
    rw [noMatch, Bool.and_eq_true, Bool.not_eq_true'] at h
    rw [visitNode, if_neg (by simp [h.1])]
    rw [visitList_noMatch tr cs h.2]

theorem visitList_noMatch (tr : Transpile) :
    ∀ l : NodeList, noMatchList l = true → visitList tr l = l
  | NodeList.nil, _ => rfl
  | NodeList.cons c cs, h => by
    rw [noMatchList, Bool.and_eq_true] at h
    rw [visitList, visitNode_noMatch tr c h.1, visitList_noMatch tr cs h.2]
end

/-! ### Detector characterization -/

theorem isNativeClassExtension_iff (n : Node) :
    isNativeClassExtension n = true ↔
      (canHaveDecorators n = true ∧
        ∃ d ∈ (getDecorators n).getD [], containsL d.fullText tagChars = true) := by
  rw [isNativeClassExtension]
  cases hgd : getDecorators n with
  | none =>
    simp
  | some ds =>
    simp only [Option.getD_some, Bool.and_eq_true, decide_eq_true_eq,
      filter_length_pos_iff, containsL_jsTrim_tag]

theorem noMatch_guard {n : Node} (h : noMatch n = true) :
    (isClassDeclaration n && isNativeClassExtension n) = false := by
  cases n with
  | classDecl d t cs =>
    rw [noMatch, Bool.and_eq_true, Bool.not_eq_true'] at h
    exact h.1
  | other k d t cs =>
    rw [noMatch, Bool.and_eq_true, Bool.not_eq_true'] at h
    exact h.1

theorem visit_map_statementwise (tr : Transpile) :
    ∀ l : List Node,
      (∀ s ∈ l, (isClassDeclaration s && isNativeClassExtension s) = true ∨ noMatch s = true) →
      l.map (visitNode tr) =
        l.map (fun s =>
          if (isClassDeclaration s && isNativeClassExtension s) = true
          then createHelper tr s else s) := by
  intro l
  induction l with
  | nil =>
    intro _
    rfl
  | cons s ss ih =>
    intro h
    rw [List.map_cons, List.map_cons]
    have hs := h s (List.mem_cons_self s ss)
    have hss := ih fun x hx => h x (List.mem_cons_of_mem s hx)
    rw [hss]
    rcases hs with hm | hn
    · rw [visitNode_eq_matched hm, if_pos hm]
    · rw [visitNode_noMatch tr s hn, if_neg (by simp [noMatch_guard hn])]

theorem map_visit_id (tr : Transpile) :
    ∀ l : List Node, (∀ s ∈ l, noMatch s = true) → l.map (visitNode tr) = l := by
  intro l
  induction l with
  | nil =>
    intro _
    rfl
  | cons s ss ih =>
    intro h
    rw [List.map_cons, visitNode_noMatch tr s (h s (List.mem_cons_self s ss)),
      ih fun x hx => h x (List.mem_cons_of_mem s hx)]

/-! ### Claim theorems -/

/-- Claim C1, counterexample: in a file whose single statement is a
non-matching function declaration holding a marker-bearing class in its
body, that non-matching statement is not byte-identical (not even
structurally equal) between input and output: the traversal rebuilt it
around the replaced child.  This refutes the claim that every node other
than the replaced ones is unchanged and that non-matching statements are
byte-identical in the output. -/
theorem nested_match_changes_sibling_statement :
    (isClassDeclaration outerFn && isNativeClassExtension outerFn) = false ∧
    (transform trEcho nestedFile).statements ≠ nestedFile.statements := by
  exact ⟨by decide, by decide⟩

/-- Claim C1, amended: when every top-level statement either is itself a
matching class declaration or contains no match anywhere in its subtree,
the output statement list is the input list with each matching declaration
replaced by its helper node and every other statement unchanged; in
particular the statement count is preserved (`N` replacements plus `M`
untouched statements). -/
theorem transform_toplevel_statementwise (tr : Transpile) (source : SourceFile)
    (h : ∀ s ∈ source.statements,
      (isClassDeclaration s && isNativeClassExtension s) = true ∨ noMatch s = true) :
    (transform tr source).statements =
      source.statements.map (fun s =>
        if (isClassDeclaration s && isNativeClassExtension s) = true
        then createHelper tr s else s) ∧
    (transform tr source).statements.length = source.statements.length := by
  constructor
  · exact visit_map_statementwise tr source.statements h
  · exact List.length_map source.statements (visitNode tr)

/-- Claim C1, witness: the amended statement applied to a concrete file of
one matching declaration and one plain statement. -/
theorem transform_toplevel_statementwise_witness :
    (∀ s ∈ sampleFile.statements,
      (isClassDeclaration s && isNativeClassExtension s) = true ∨ noMatch s = true) ∧
    ((transform trEcho sampleFile).statements =
      sampleFile.statements.map (fun s =>
        if (isClassDeclaration s && isNativeClassExtension s) = true
        then createHelper trEcho s else s) ∧
    (transform trEcho sampleFile).statements.length = sampleFile.statements.length) :=
  ⟨by decide, transform_toplevel_statementwise trEcho sampleFile (by decide)⟩

/-- Claim C2, counterexample: the marker-removal regex deletes every
occurrence of the tag in the declaration text, including one inside a
member body string literal, so the member body is not preserved
byte-for-byte and the fragment differs from the text with only the marker
annotation removed. -/
theorem fragment_alters_member_body :
    isNativeClassExtension bodyTagNode = true ∧
    fragmentText bodyTagNode = "\nclass A \x7b m() \x7b return \"\"; \x7d \x7d".toList ∧
    fragmentText bodyTagNode ≠
      "\nclass A \x7b m() \x7b return \"@NativeClass\"; \x7d \x7d".toList := by
  exact ⟨by decide, by decide, by decide⟩

/-- Claim C2, amended: when the tag occurs exactly once, as the marker
(optionally followed by a parenthesized argument list without a closing
parenthesis or line-terminator obstruction inside), the Fragment Text is
the declaration text with exactly that occurrence (and its argument list)
deleted, and the surrounding text is preserved byte-for-byte. -/
theorem fragmentText_single_marker_removal (d : Option (List Decorator)) (cs : NodeList)
    (a inner b : List Char)
    (ha : containsL a tagChars = false) (hb : containsL b tagChars = false)
    (hinner : ∀ c ∈ inner, dotNl c = true ∧ c ≠ ')')
    (hbhead : b.head? ≠ some '(') :
    fragmentText (Node.classDecl d (a ++ (tagChars ++ '(' :: (inner ++ ')' :: b))) cs) =
      a ++ b ∧
    fragmentText (Node.classDecl d (a ++ (tagChars ++ b)) cs) = a ++ b := by
  exact ⟨stripMarker_single_args ha hb hinner, stripMarker_single_noParen ha hb hbhead⟩

/-- Claim C2, witness: the amended statement at a concrete declaration
`export @NativeClass(1, 2)\nclass Foo {}`. -/
theorem fragmentText_single_marker_removal_witness :
    (containsL "export ".toList tagChars = false ∧
     containsL "\nclass Foo \x7b\x7d".toList tagChars = false ∧
     (∀ c ∈ "1, 2".toList, dotNl c = true ∧ c ≠ ')') ∧
     "\nclass Foo \x7b\x7d".toList.head? ≠ some '(') ∧
    fragmentText (Node.classDecl none
        ("export ".toList ++ (tagChars ++ '(' ::
          ("1, 2".toList ++ ')' :: "\nclass Foo \x7b\x7d".toList))) NodeList.nil) =
      "export ".toList ++ "\nclass Foo \x7b\x7d".toList :=
  ⟨⟨by decide, by decide, by decide, by decide⟩,
   (fragmentText_single_marker_removal none NodeList.nil _ _ _
      (by decide) (by decide) (by decide) (by decide)).1⟩

/-- Claim C3, counterexample: in `emittedBad` the only
`Object.defineProperty` call does not set the enumerability attribute, and
the only `enumerable: false` text lies in an unrelated string literal; the
claim therefore predicts the text is left unchanged, but the dot-all lazy
gaps of the pattern bridge from the call into the string literal and the
normalizer rewrites it. -/
theorem normalizer_alters_unrelated_text :
    fixEnumerable emittedBad = emittedBadRes ∧ fixEnumerable emittedBad ≠ emittedBad := by
  exact ⟨by decide, by decide⟩

/-- Claim C3, amended: the normalizer performs the literal global regex
replacement; text containing no occurrence of `Object.defineProperty(` is
never altered, and on the canonical legacy-emit property-installation
shape the `enumerable: false` attribute is rewritten to `enumerable: true`
with everything else preserved — but inside a match the lazy dot-all gaps
may span arbitrary text, so the rewritten attribute occurrence need not
belong to the property-definition call (see the counterexample). -/
theorem fixEnumerable_scope :
    (∀ s : List Char, containsL s odpChars = false → fixEnumerable s = s) ∧
    fixEnumerable emittedGood = emittedGoodRes :=
  ⟨fun _ hs => fixEnumerable_id hs, by decide⟩

/-- Claim C3, witness: the no-occurrence part of the amended statement at a
concrete emitted text. -/
theorem fixEnumerable_scope_witness :
    containsL "var x = 1;".toList odpChars = false ∧
    fixEnumerable "var x = 1;".toList = "var x = 1;".toList :=
  ⟨by decide, fixEnumerable_scope.1 "var x = 1;".toList (by decide)⟩

/-- Claim C4: on the spec scenario `@NativeClass(1,2` (unterminated
argument list) the stripped fragment is the syntactically invalid
`(1,2\nclass Foo {}`, yet for every possible result of the nested compiler
— in particular whatever diagnostics it reports — the transform still
produces an output tree, wrapping `outputText` in an identifier node; the
diagnostics are discarded, no failure is raised, and nothing references
the offending declaration. -/
theorem transform_ignores_diagnostics_on_malformed_fragment :
    fragmentText malformedNode = "(1,2\nclass Foo \x7b\x7d".toList ∧
    ∀ (out : List Char) (diags : List (List Char)),
      transform (fun _ _ => { outputText := out, diagnostics := diags }) malformedFile =
        { statements := [Node.other SynKind.identifier none (fixEnumerable out) NodeList.nil] } := by
  constructor
  · decide
  · intro out diags
    rfl

/-- Claim C5: the Marker Detector returns true exactly when the capability
check passes and some attached decorator's full printed text contains the
tag as a substring (trimming, which the code applies first, cannot change
that, since the tag contains no whitespace); a declaration without
decorators yields false. -/
theorem isNativeClassExtension_spec (n : Node) :
    (isNativeClassExtension n = true ↔
      (canHaveDecorators n = true ∧
        ∃ d ∈ (getDecorators n).getD [], containsL d.fullText tagChars = true)) ∧
    (getDecorators n = none → isNativeClassExtension n = false) := by
  refine ⟨isNativeClassExtension_iff n, fun hgd => ?_⟩
  rw [isNativeClassExtension, hgd]
  simp

/-- Claim C5, witness: a class declaration without decorators is rejected. -/
theorem isNativeClassExtension_spec_witness :
    getDecorators (Node.classDecl none "class P \x7b\x7d".toList NodeList.nil) = none ∧
    isNativeClassExtension (Node.classDecl none "class P \x7b\x7d".toList NodeList.nil) = false :=
  ⟨rfl, (isNativeClassExtension_spec (Node.classDecl none "class P \x7b\x7d".toList NodeList.nil)).2 rfl⟩

/-- Claim C6, counterexample: deleting an embedded tag occurrence can
re-form the tag by juxtaposition (`@Nativ` + `@NativeClass` + `eClass`
becomes `@NativeClass` after the middle occurrence is deleted), so the
Fragment Text handed to the nested compiler — and hence, since the
compiler preserves string literals, the emitted text — can still contain
the marker tag.  The global replacement does not rescan its output. -/
theorem fragment_can_retain_tag :
    isNativeClassExtension juxtapNode = true ∧
    containsL (fragmentText juxtapNode) tagChars = true := by
  exact ⟨by decide, by decide⟩

/-- Claim C6, amended: when the declaration text around the single marker
occurrence (with a parenthesized argument list) contains no tag occurrence
and does not re-form one, the Fragment Text contains zero occurrences of
the tag and the argument list is discarded wholesale — the fragment is
exactly the surrounding text. -/
theorem fragment_tag_free_when_single_marker (d : Option (List Decorator)) (cs : NodeList)
    (a inner b : List Char)
    (hab : containsL (a ++ b) tagChars = false)
    (hinner : ∀ c ∈ inner, dotNl c = true ∧ c ≠ ')') :
    fragmentText (Node.classDecl d (a ++ (tagChars ++ '(' :: (inner ++ ')' :: b))) cs) =
      a ++ b ∧
    containsL
      (fragmentText (Node.classDecl d (a ++ (tagChars ++ '(' :: (inner ++ ')' :: b))) cs))
      tagChars = false := by
  have ha : containsL a tagChars = false := by
    cases hc : containsL a tagChars with
    | false => rfl
    | true =>
      rw [containsL_append_right b hc] at hab
      exact absurd hab (by simp)
  have hb : containsL b tagChars = false := by
    cases hc : containsL b tagChars with
    | false => rfl
    | true =>
      rw [containsL_append_left a hc] at hab
      exact absurd hab (by simp)
  have heq : fragmentText (Node.classDecl d
      (a ++ (tagChars ++ '(' :: (inner ++ ')' :: b))) cs) = a ++ b :=
    stripMarker_single_args ha hb hinner
  exact ⟨heq, by rw [heq]; exact hab⟩

/-- Claim C6, witness: the amended statement at
`@NativeClass(1,2)\nclass Foo {}`: the argument list `(1,2)` does not
survive into the fragment, which is tag-free. -/
theorem fragment_tag_free_when_single_marker_witness :
    (containsL ("".toList ++ "\nclass Foo \x7b\x7d".toList) tagChars = false ∧
     (∀ c ∈ "1,2".toList, dotNl c = true ∧ c ≠ ')')) ∧
    (fragmentText (Node.classDecl none
        ("".toList ++ (tagChars ++ '(' ::
          ("1,2".toList ++ ')' :: "\nclass Foo \x7b\x7d".toList))) NodeList.nil) =
      "".toList ++ "\nclass Foo \x7b\x7d".toList ∧
    containsL (fragmentText (Node.classDecl none
        ("".toList ++ (tagChars ++ '(' ::
          ("1,2".toList ++ ')' :: "\nclass Foo \x7b\x7d".toList))) NodeList.nil))
      tagChars = false) :=
  ⟨⟨by decide, by decide⟩,
   fragment_tag_free_when_single_marker none NodeList.nil _ _ _ (by decide) (by decide)⟩

/-- Claim C7: the traversal replaces a matching class declaration by the
helper node — an opaque leaf with no children, so nothing beneath the
original subtree is visited or separately transformed — and on every other
node it rebuilds the node with visited children, preserving its kind,
decorators and text. -/
theorem visitNode_replace_or_recurse (tr : Transpile) (n : Node) :
    ((isClassDeclaration n && isNativeClassExtension n) = true →
      visitNode tr n = createHelper tr n ∧
      childrenOf (visitNode tr n) = NodeList.nil) ∧
    ((isClassDeclaration n && isNativeClassExtension n) = false →
      visitNode tr n = replaceChildren n (visitList tr (childrenOf n))) := by
  constructor
  · intro h
    refine ⟨visitNode_eq_matched h, ?_⟩
    rw [visitNode_eq_matched h]
    rfl
  · exact visitNode_eq_unmatched

/-- Claim C7, witness: both branches at concrete nodes. -/
theorem visitNode_replace_or_recurse_witness :
    ((isClassDeclaration sampleMarked && isNativeClassExtension sampleMarked) = true ∧
      (visitNode trEcho sampleMarked = createHelper trEcho sampleMarked ∧
       childrenOf (visitNode trEcho sampleMarked) = NodeList.nil)) ∧
    ((isClassDeclaration samplePlain && isNativeClassExtension samplePlain) = false ∧
      visitNode trEcho samplePlain =
        replaceChildren samplePlain (visitList trEcho (childrenOf samplePlain))) :=
  ⟨⟨by decide, (visitNode_replace_or_recurse trEcho sampleMarked).1 (by decide)⟩,
   ⟨by decide, (visitNode_replace_or_recurse trEcho samplePlain).2 (by decide)⟩⟩

/-- Claim C8: a source file containing no marker-bearing class declaration
anywhere is returned unchanged (hence its serialized text is unchanged). -/
theorem transform_identity_of_no_match (tr : Transpile) (source : SourceFile)
    (h : source.statements.all noMatch = true) :
    transform tr source = source := by
  obtain ⟨stmts⟩ := source
  show ({ statements := stmts.map (visitNode tr) } : SourceFile) = { statements := stmts }
  rw [List.all_eq_true] at h
  rw [map_visit_id tr stmts h]

/-- Claim C8, witness: a file holding a non-marker-decorated class and a
plain statement passes through unchanged. -/
theorem transform_identity_of_no_match_witness :
    noMatchFile.statements.all noMatch = true ∧
    transform trEcho noMatchFile = noMatchFile :=
  ⟨by decide, transform_identity_of_no_match trEcho noMatchFile (by decide)⟩

/-- Claim C9: the nested compile is always invoked with the one fixed
options object — helper injection disabled, ESNext (unwrapped, non-modular)
emit, ES5 (legacy prototype-based) target, and `reportDiagnostics` not
set — independent of the declaration and of the transpiler; the options
are constants of the transform, not configurable per invocation. -/
theorem createHelper_fixed_options (tr : Transpile) (n : Node) :
    createHelper tr n =
      Node.other SynKind.identifier none
        (fixEnumerable (tr (fragmentText n) nativeClassTranspileOptions).outputText)
        NodeList.nil ∧
    nativeClassTranspileOptions.compilerOptions.noEmitHelpers = true ∧
    nativeClassTranspileOptions.compilerOptions.module = ModuleKind.esNext ∧
    nativeClassTranspileOptions.compilerOptions.target = ScriptTarget.es5 ∧
    nativeClassTranspileOptions.reportDiagnostics = none :=
  ⟨rfl, rfl, rfl, rfl, rfl⟩

/-- Claim C10: a node that is not a class declaration is never replaced —
whatever decorators it carries, the traversal keeps its kind, decorators
and text and only recurses into its children. -/
theorem visitNode_non_class_never_replaced (tr : Transpile) (k : SynKind)
    (d : Option (List Decorator)) (t : List Char) (cs : NodeList) :
    isClassDeclaration (Node.other k d t cs) = false ∧
    visitNode tr (Node.other k d t cs) = Node.other k d t (visitList tr cs) := by
  refine ⟨rfl, ?_⟩
  rw [visitNode, if_neg (by simp [isClassDeclaration])]
